import Mathlib

/-!
Shallow embedding of the core of the Linux-Process-Manager repository:
the data model (`src/user.rs`, `src/process/mod.rs`, `src/process/pcb.rs`,
`src/process/tree.rs`, `src/manager.rs`), the permission guard
(`src/manager/permissions.rs`), the control operations
(`src/manager/operations.rs`), the batch/tree code (`src/manager/batch.rs`,
`src/gui/app.rs`) and the monitoring/refresh engine
(`src/manager/monitoring.rs`).

Modelling conventions:
* Rust `HashMap<u32, V>` becomes an association list `List (Nat × V)`;
  `HashMap::insert` becomes `alInsert`, `HashMap::get` becomes `List.lookup`,
  and `retain` becomes `List.filter`.  The key set of a real `HashMap` has no
  duplicates; that fact is the `WfTable` hypothesis where it is needed.
* `std::time::Instant` timestamps and `f32`/`f64` arithmetic are modelled
  over `ℚ` (exact arithmetic; `Instant::duration_since` saturates at zero,
  modelled with `max _ 0`).
* Fallible OS primitives (signal delivery, `setpriority`) are modelled by a
  behaviour function `os : OsCall → Bool` telling whether a given call
  succeeds; every operation returns, next to its `Except` result, the list of
  OS calls it actually issued, so "no OS primitive is invoked" is a statement
  about that trace.
* `procfs::process::all_processes()` output is an `Except String (List ProcEntry)`;
  an entry whose `info` is `none` models every silently-skipped per-process
  read (listing error, vanished process, unreadable stat), and `cpuTime`
  models the result of `Process::get_cpu_time_jiffies`.
-/

namespace LPMVerify

/-- Privilege level of the user, from `src/user.rs`. -/
inductive Privilege where
  | Normal
  | Admin
deriving DecidableEq, Repr

/-- The active user, from `src/user.rs`. -/
structure User where
  id : Nat
  name : String
  privilege : Privilege
deriving DecidableEq, Repr

/-- Key metrics of a process, from `src/process/pcb.rs` (`cpu_percent : f32`
modelled over `ℚ`). -/
structure PcbData where
  cpu_percent : ℚ
  memory_rss_mb : Nat
  state : Char
  priority : Int
  uptime_seconds : Nat
deriving DecidableEq, Repr

/-- A single process, from `src/process/mod.rs`. -/
structure Process where
  process_id : Nat
  user_id : Nat
  name : String
  parent_id : Option Nat
  pcb_data : PcbData
deriving DecidableEq, Repr

/-- The `Process::set_cpu_percent` method of `src/process/mod.rs`. -/
def set_cpu_percent (p : Process) (cpu : ℚ) : Process :=
  { p with pcb_data := { p.pcb_data with cpu_percent := cpu } }

/-- The manager struct of `src/manager.rs`: it owns the process table, the active user,
the configured root pid and the per-pid CPU-time history
(`HashMap<pid, (cpu_time_jiffies, timestamp)>`). -/
structure Manager where
  processes : List (Nat × Process)
  active_user : User
  root_pid : Nat
  previous_cpu_times : List (Nat × Nat × ℚ)

/-- The permission-denied message of `src/manager/permissions.rs`. -/
def permission_denied_message : String :=
  "Permission denied: Admin privileges required to perform this action."

/-- The `check_admin_privilege` function of `src/manager/permissions.rs`. -/
def check_admin_privilege (manager : Manager) : Except String Unit :=
  if manager.active_user.privilege = Privilege.Admin then
    Except.ok ()
  else
    Except.error permission_denied_message

/-- The signals sent by `src/manager/operations.rs`. -/
inductive Signal where
  | SIGKILL
  | SIGTERM
  | SIGSTOP
  | SIGCONT
deriving DecidableEq, Repr

/-- An OS primitive invocation: `nix::sys::signal::kill` or
`libc::setpriority`. -/
inductive OsCall where
  | signal (pid : Nat) (sig : Signal)
  | setprio (pid : Nat) (nice : Int)
deriving DecidableEq, Repr

/-- The `kill_process` operation (SIGKILL) of `src/manager/operations.rs`.
The second component is the list of OS calls issued. -/
def kill_process (manager : Manager) (pid : Nat) (os : OsCall → Bool) :
    Except String Unit × List OsCall :=
  match check_admin_privilege manager with
  | Except.error e => (Except.error e, [])
  | Except.ok _ =>
    let c := OsCall.signal pid Signal.SIGKILL
    (if os c then Except.ok () else
      Except.error ("Failed to send SIGKILL to PID " ++ toString pid), [c])

/-- The `terminate_process` operation (SIGTERM) of `src/manager/operations.rs`. -/
def terminate_process (manager : Manager) (pid : Nat) (os : OsCall → Bool) :
    Except String Unit × List OsCall :=
  match check_admin_privilege manager with
  | Except.error e => (Except.error e, [])
  | Except.ok _ =>
    let c := OsCall.signal pid Signal.SIGTERM
    (if os c then Except.ok () else
      Except.error ("Failed to send SIGTERM to PID " ++ toString pid), [c])

/-- The `pause_process` operation (SIGSTOP) of `src/manager/operations.rs`. -/
def pause_process (manager : Manager) (pid : Nat) (os : OsCall → Bool) :
    Except String Unit × List OsCall :=
  match check_admin_privilege manager with
  | Except.error e => (Except.error e, [])
  | Except.ok _ =>
    let c := OsCall.signal pid Signal.SIGSTOP
    (if os c then Except.ok () else
      Except.error ("Failed to pause PID " ++ toString pid), [c])

/-- The `resume_process` operation (SIGCONT) of `src/manager/operations.rs`. -/
def resume_process (manager : Manager) (pid : Nat) (os : OsCall → Bool) :
    Except String Unit × List OsCall :=
  match check_admin_privilege manager with
  | Except.error e => (Except.error e, [])
  | Except.ok _ =>
    let c := OsCall.signal pid Signal.SIGCONT
    (if os c then Except.ok () else
      Except.error ("Failed to resume PID " ++ toString pid), [c])

/-- The `set_priority` operation (`libc::setpriority`) of `src/manager/operations.rs`. -/
def set_priority (manager : Manager) (pid : Nat) (nice_value : Int)
    (os : OsCall → Bool) : Except String Unit × List OsCall :=
  match check_admin_privilege manager with
  | Except.error e => (Except.error e, [])
  | Except.ok _ =>
    let c := OsCall.setprio pid nice_value
    (if os c then Except.ok () else
      Except.error ("Failed to set nice value for PID " ++ toString pid), [c])

/-- The `batch_kill` function of `src/gui/app.rs`: loops over all pids,
calling `kill_process` (force) or `terminate_process`, counting per-pid
successes and failures independently; the counts are then formatted into the
GUI status message.  Returns `((successful, failed), trace)`. -/
def batch_kill (manager : Manager) (pids : List Nat) (force : Bool)
    (os : OsCall → Bool) : (Nat × Nat) × List OsCall :=
  pids.foldl
    (fun acc pid =>
      let r := if force then kill_process manager pid os
               else terminate_process manager pid os
      match r.1 with
      | Except.ok _ => ((acc.1.1 + 1, acc.1.2), acc.2 ++ r.2)
      | Except.error _ => ((acc.1.1, acc.1.2 + 1), acc.2 ++ r.2))
    ((0, 0), [])

/-- The `batch_pause` function of `src/gui/app.rs`. -/
def batch_pause (manager : Manager) (pids : List Nat)
    (os : OsCall → Bool) : (Nat × Nat) × List OsCall :=
  pids.foldl
    (fun acc pid =>
      let r := pause_process manager pid os
      match r.1 with
      | Except.ok _ => ((acc.1.1 + 1, acc.1.2), acc.2 ++ r.2)
      | Except.error _ => ((acc.1.1, acc.1.2 + 1), acc.2 ++ r.2))
    ((0, 0), [])

/-- The `batch_resume` function of `src/gui/app.rs`. -/
def batch_resume (manager : Manager) (pids : List Nat)
    (os : OsCall → Bool) : (Nat × Nat) × List OsCall :=
  pids.foldl
    (fun acc pid =>
      let r := resume_process manager pid os
      match r.1 with
      | Except.ok _ => ((acc.1.1 + 1, acc.1.2), acc.2 ++ r.2)
      | Except.error _ => ((acc.1.1, acc.1.2 + 1), acc.2 ++ r.2))
    ((0, 0), [])

/-- A node in the process tree, from `src/process/tree.rs`: a process and its
list of child nodes. -/
inductive ProcessNode where
  | mk (process : Process) (children : List ProcessNode)

/-- The `process` field accessor of `ProcessNode`. -/
def ProcessNode.process : ProcessNode → Process
  | ProcessNode.mk p _ => p

/-- The `children` field accessor of `ProcessNode`. -/
def ProcessNode.children : ProcessNode → List ProcessNode
  | ProcessNode.mk _ cs => cs

/-- The `children_map` of `build_process_tree` in `src/manager/batch.rs`,
viewed as the function from a parent pid to the list of direct child
processes: every table entry other than the root-pid entry is grouped under
its `parent_id`. -/
def childList (table : List (Nat × Process)) (rootPid : Nat) (k : Nat) :
    List Process :=
  (table.filter (fun e => decide (e.1 ≠ rootPid ∧ e.2.parent_id = some k))).map
    Prod.snd

/-- Sequences a list of optional values, mirroring the child-building loop of
`build_node`: the result is `none` exactly when some element is `none`. -/
def listOptMap (f : α → Option β) : List α → Option (List β)
  | [] => some []
  | a :: l =>
    match f a, listOptMap f l with
    | some b, some bs => some (b :: bs)
    | _, _ => none

/-- The recursive helper `build_node` of `src/manager/batch.rs`, with an
explicit recursion-depth budget `fuel` (the Rust helper recurses without a
budget; `buildNodeFuel_total` below proves that with `fuel` larger than the
table size the budget is never exhausted, so the embedding computes the same
tree the Rust recursion does).  Defined through `Nat.rec` so that it reduces
definitionally on closed inputs. -/
def buildNodeFuel (cmap : Nat → List Process) : Nat → Process → Option ProcessNode :=
  fun fuel =>
    Nat.rec (motive := fun _ => Process → Option ProcessNode)
      (fun _ => none)
      (fun _ ih p => (listOptMap ih (cmap p.process_id)).map
        (fun cs => ProcessNode.mk p cs))
      fuel

theorem buildNodeFuel_zero (cmap : Nat → List Process) (p : Process) :
    buildNodeFuel cmap 0 p = none := rfl

theorem buildNodeFuel_succ (cmap : Nat → List Process) (n : Nat) (p : Process) :
    buildNodeFuel cmap (n + 1) p =
      (listOptMap (buildNodeFuel cmap n) (cmap p.process_id)).map
        (fun cs => ProcessNode.mk p cs) := rfl

/-- The `build_process_tree` function of `src/manager/batch.rs`, on a table
and root pid: look up the root process (absent root means no tree), group the
remaining entries by parent pid, and build the tree top-down. -/
def build_tree (table : List (Nat × Process)) (rootPid : Nat) :
    Option ProcessNode :=
  match table.lookup rootPid with
  | none => none
  | some root_process =>
    buildNodeFuel (childList table rootPid) (table.length + 1) root_process

/-- The `build_process_tree` entry point on a `Manager`
(`src/manager/batch.rs`, also re-exported by `Manager::build_process_tree`). -/
def build_process_tree (manager : Manager) : Option ProcessNode :=
  build_tree manager.processes manager.root_pid

/-- The recursive helper `get_descendant_pids` of `src/manager/batch.rs`,
flattened over a list of sibling nodes: for each child, push its pid, then
recursively the pids of its own descendants, then continue with the next
sibling.  `get_descendant_pids node` itself is `descAux node.children`. -/
def descAux : List ProcessNode → List Nat
  | [] => []
  | ProcessNode.mk p cs :: rest => p.process_id :: (descAux cs ++ descAux rest)
termination_by l => sizeOf l
decreasing_by
  all_goals simp_wf
  all_goals omega

/-- The `get_descendant_pids` function of `src/manager/batch.rs`. -/
def get_descendant_pids (node : ProcessNode) : List Nat :=
  descAux node.children

theorem sizeOf_list_append (l1 l2 : List ProcessNode) :
    sizeOf (l1 ++ l2) + 1 = sizeOf l1 + sizeOf l2 := by
  induction l1 with
  | nil => simp; omega
  | cons a l ih => simp [ih]; omega

theorem sizeOf_list_reverse (l : List ProcessNode) :
    sizeOf l.reverse = sizeOf l := by
  induction l with
  | nil => rfl
  | cons a l ih =>
    have h := sizeOf_list_append l.reverse [a]
    simp only [List.reverse_cons]
    simp at h ⊢
    omega

/-- The iterative stack search of `kill_descendants` in
`src/manager/batch.rs`: pop the top of the stack, return it if its pid
matches, otherwise push its children and continue.  (The Rust stack pops from
the back and extends with the children in order, so the children are visited
in reverse order; here the stack top is the list head, so the pushed children
are reversed.) -/
def findNode : List ProcessNode → Nat → Option ProcessNode
  | [], _ => none
  | n :: rest, pid =>
    if n.process.process_id = pid then some n
    else findNode (n.children.reverse ++ rest) pid
termination_by stack _ => sizeOf stack
decreasing_by
  simp_wf
  have h := sizeOf_list_append n.children.reverse rest
  have h2 := sizeOf_list_reverse n.children
  cases n with
  | mk p cs =>
    simp [ProcessNode.children] at h h2 ⊢
    omega

/-- The `kill_descendants` function of `src/manager/batch.rs`: check Admin
privilege, build the tree, locate the target node, collect its descendant
pids and kill them in reverse order, accumulating successes, a failure count
and the OS-call trace; a nonzero failure count turns into an error, otherwise
the list of successfully killed pids is returned. -/
def kill_descendants (manager : Manager) (parent_pid : Nat)
    (os : OsCall → Bool) : Except String (List Nat) × List OsCall :=
  match check_admin_privilege manager with
  | Except.error e => (Except.error e, [])
  | Except.ok _ =>
    match build_process_tree manager with
    | none => (Except.error "Failed to build process tree.", [])
    | some root_node =>
      match findNode [root_node] parent_pid with
      | none =>
        (Except.error ("PID " ++ toString parent_pid ++
          " not found in active processes."), [])
      | some start_node =>
        let pids_to_kill := get_descendant_pids start_node
        let res := pids_to_kill.reverse.foldl
          (fun (acc : List Nat × Nat × List OsCall) pid =>
            let r := kill_process manager pid os
            match r.1 with
            | Except.ok _ => (acc.1 ++ [pid], acc.2.1, acc.2.2 ++ r.2)
            | Except.error _ => (acc.1, acc.2.1 + 1, acc.2.2 ++ r.2))
          ([], 0, [])
        if res.2.1 > 0 then
          (Except.error ("Successfully killed " ++ toString res.1.length ++
            " processes, but failed to kill " ++ toString res.2.1 ++
            " descendants."), res.2.2)
        else
          (Except.ok res.1, res.2.2)

/-- Strict-descendant relation on tree nodes: `Descendant t d` holds when `d`
is a child of `t` or a descendant of one of `t`'s children. -/
inductive Descendant : ProcessNode → ProcessNode → Prop where
  | child {t c : ProcessNode} : c ∈ t.children → Descendant t c
  | step {t c d : ProcessNode} : c ∈ t.children → Descendant c d →
      Descendant t d

/-- The pid of the root of a tree followed by the pids of all its
descendants, in discovery order. -/
def treePids (t : ProcessNode) : List Nat :=
  t.process.process_id :: descAux t.children

/-- `Before l x y`: some occurrence of `x` comes strictly before some
occurrence of `y` in the list `l`. -/
def Before (l : List Nat) (x y : Nat) : Prop :=
  ∃ l1 l2 l3, l = l1 ++ x :: l2 ++ y :: l3

/-- `HashMap::insert` on an association list: replaces any existing binding
of the key and otherwise adds one. -/
def alInsert (k : Nat) (v : β) (l : List (Nat × β)) : List (Nat × β) :=
  (k, v) :: l.filter (fun e => decide (e.1 ≠ k))

/-- One raw item of the `procfs::process::all_processes()` enumeration, as
consumed by `refresh_processes` in `src/manager/monitoring.rs`: the pid, the
result of `Process::try_from(pid)` (`none` for every silently-skipped case:
listing error, vanished process, unreadable data) and the result of
`Process::get_cpu_time_jiffies(pid)`. -/
structure ProcEntry where
  pid : Nat
  info : Option Process
  cpuTime : Option Nat
deriving DecidableEq, Repr

/-- The CPU-percentage computation of `refresh_processes`
(`src/manager/monitoring.rs` lines 94-107): convert the tick delta to
seconds using the tick frequency `hz`, divide by the wall-clock delta, scale
to a percentage and divide by the core count; a non-positive wall-clock
delta yields 0. -/
def cpuPercent (delta_cpu_time : Nat) (hz delta_wall_time num_cores : ℚ) : ℚ :=
  if 0 < delta_wall_time then
    ((delta_cpu_time : ℚ) / hz) / delta_wall_time * 100 / num_cores
  else 0

/-- The loop state of `refresh_processes`: the freshly built table
(`new_processes`), the CPU-time history being updated in place
(`previous_cpu_times`) and the count of successfully loaded processes. -/
structure RefreshState where
  newProcs : List (Nat × Process)
  prev : List (Nat × Nat × ℚ)
  loaded : Nat
deriving Repr

/-- One iteration of the per-process loop of `refresh_processes`: skip
unreadable entries; otherwise compute the CPU percentage from the previous
sample when one exists (updating the history on a successful CPU-time read),
or report 0% and seed the history when the pid is seen for the first time;
finally insert the record into the new table. -/
def refreshStep (now num_cores hz : ℚ) (st : RefreshState) (e : ProcEntry) :
    RefreshState :=
  match e.info with
  | none => st
  | some proc =>
    match st.prev.lookup e.pid with
    | some (prev_cpu_time, prev_time) =>
      match e.cpuTime with
      | some current_cpu_time =>
        let delta_cpu_time := current_cpu_time - prev_cpu_time
        let delta_wall_time := max (now - prev_time) 0
        let proc' := set_cpu_percent proc
          (cpuPercent delta_cpu_time hz delta_wall_time num_cores)
        { newProcs := alInsert e.pid proc' st.newProcs
          prev := alInsert e.pid (current_cpu_time, now) st.prev
          loaded := st.loaded + 1 }
      | none =>
        { newProcs := alInsert e.pid (set_cpu_percent proc 0) st.newProcs
          prev := st.prev
          loaded := st.loaded + 1 }
    | none =>
      let prev' := match e.cpuTime with
        | some cpu_time => alInsert e.pid (cpu_time, now) st.prev
        | none => st.prev
      { newProcs := alInsert e.pid (set_cpu_percent proc 0) st.newProcs
        prev := prev'
        loaded := st.loaded + 1 }

/-- The `refresh_processes` function of `src/manager/monitoring.rs`: a
failing enumeration is returned as an error with the table and history
untouched; otherwise the per-process loop builds a fresh table and updates
the history, stale history entries are pruned (`retain`), and the new table
replaces the old one.  Returns the new table, the new history, and the count
result.  `now`, `num_cores` and `hz` are the environment values read at the
start of the cycle (`Instant::now`, `get_num_cores`, `get_hz`). -/
def refresh_processes (enum : Except String (List ProcEntry))
    (now num_cores hz : ℚ)
    (processes : List (Nat × Process)) (previous_cpu_times : List (Nat × Nat × ℚ)) :
    List (Nat × Process) × List (Nat × Nat × ℚ) × Except String Nat :=
  match enum with
  | Except.error e =>
    (processes, previous_cpu_times,
      Except.error ("Failed to read process list: " ++ e))
  | Except.ok entries =>
    let st := entries.foldl (refreshStep now num_cores hz)
      { newProcs := [], prev := previous_cpu_times, loaded := 0 }
    let prev' := st.prev.filter (fun e => (st.newProcs.lookup e.1).isSome)
    (st.newProcs, prev', Except.ok st.loaded)

/-- The `Manager::refresh` method of `src/manager.rs`: runs
`refresh_processes` on the manager's table and history and discards the
count. -/
def Manager.refresh (m : Manager) (enum : Except String (List ProcEntry))
    (now num_cores hz : ℚ) : Manager × Except String Unit :=
  let r := refresh_processes enum now num_cores hz m.processes m.previous_cpu_times
  ({ m with processes := r.1, previous_cpu_times := r.2.1 },
    r.2.2.map (fun _ => ()))

/-- Well-formedness of a process table, true of every table the program
builds (`HashMap` keys are unique, and `refresh_processes` always inserts a
record under its own pid, cf. `new_processes.insert(pid, proc)` with
`proc.process_id = pid`). -/
def WfTable (table : List (Nat × Process)) : Prop :=
  (table.map Prod.fst).Nodup ∧ ∀ e ∈ table, e.2.process_id = e.1

/-! ### Helper lemmas -/

/-- Whether an `Except` result is a success. -/
def exceptOk : Except String Unit → Bool
  | Except.ok _ => true
  | Except.error _ => false

theorem batch_loop_spec (g : Nat → Except String Unit × List OsCall) :
    ∀ (pids : List Nat) (acc : (Nat × Nat) × List OsCall),
      pids.foldl (fun acc pid =>
        let r := g pid
        match r.1 with
        | Except.ok _ => ((acc.1.1 + 1, acc.1.2), acc.2 ++ r.2)
        | Except.error _ => ((acc.1.1, acc.1.2 + 1), acc.2 ++ r.2)) acc
      = ((acc.1.1 + pids.countP (fun p => exceptOk (g p).1),
          acc.1.2 + pids.countP (fun p => !exceptOk (g p).1)),
          acc.2 ++ pids.flatMap (fun p => (g p).2)) := by
  intro pids
  induction pids with
  | nil => intro acc; simp
  | cons p rest ih =>
    intro acc
    simp only [List.foldl_cons, List.countP_cons, List.flatMap_cons]
    rcases h : (g p).1 with e | u
    · simp only [h, ih]
      simp [exceptOk, h, List.append_assoc]
      omega
    · simp only [h, ih]
      simp [exceptOk, h, List.append_assoc]
      omega

theorem batch_kill_spec (m : Manager) (pids : List Nat) (force : Bool)
    (os : OsCall → Bool) :
    batch_kill m pids force os =
      ((pids.countP (fun p =>
          exceptOk (if force then kill_process m p os
                    else terminate_process m p os).1),
        pids.countP (fun p =>
          !exceptOk (if force then kill_process m p os
                     else terminate_process m p os).1)),
        pids.flatMap (fun p =>
          (if force then kill_process m p os
           else terminate_process m p os).2)) := by
  have h := batch_loop_spec
    (fun p => if force then kill_process m p os else terminate_process m p os)
    pids ((0, 0), [])
  simpa [batch_kill] using h

theorem batch_pause_spec (m : Manager) (pids : List Nat)
    (os : OsCall → Bool) :
    batch_pause m pids os =
      ((pids.countP (fun p => exceptOk (pause_process m p os).1),
        pids.countP (fun p => !exceptOk (pause_process m p os).1)),
        pids.flatMap (fun p => (pause_process m p os).2)) := by
  have h := batch_loop_spec (fun p => pause_process m p os) pids ((0, 0), [])
  simpa [batch_pause] using h

theorem batch_resume_spec (m : Manager) (pids : List Nat)
    (os : OsCall → Bool) :
    batch_resume m pids os =
      ((pids.countP (fun p => exceptOk (resume_process m p os).1),
        pids.countP (fun p => !exceptOk (resume_process m p os).1)),
        pids.flatMap (fun p => (resume_process m p os).2)) := by
  have h := batch_loop_spec (fun p => resume_process m p os) pids ((0, 0), [])
  simpa [batch_resume] using h

theorem flatMap_single (f : Nat → OsCall) (l : List Nat) :
    (l.flatMap fun p => [f p]) = l.map f := by
  induction l with
  | nil => rfl
  | cons a l ih => simp [ih]

theorem countP_bool_split (q : Nat → Bool) (l : List Nat) :
    l.countP q + l.countP (fun a => !q a) = l.length := by
  induction l with
  | nil => rfl
  | cons a l ih =>
    rw [List.countP_cons, List.countP_cons]
    cases h : q a <;> simp [h] <;> omega

/-! ### Claim theorems -/

/-- C2: for every control operation (kill, terminate, pause, resume,
set-priority, the batch variants and kill-descendants) and every session
whose privilege level is not Admin, the operation returns the
permission-denied failure (for the batch variants: every target is recorded
as failed, zero succeed) and no OS primitive is invoked — the trace of OS
calls is empty, so denial has no partial side effect. -/
theorem c2_permission_denied_no_os_call
    (m : Manager) (pid : Nat) (nice : Int) (pids : List Nat) (force : Bool)
    (os : OsCall → Bool)
    (h : m.active_user.privilege ≠ Privilege.Admin) :
    kill_process m pid os = (Except.error permission_denied_message, []) ∧
    terminate_process m pid os = (Except.error permission_denied_message, []) ∧
    pause_process m pid os = (Except.error permission_denied_message, []) ∧
    resume_process m pid os = (Except.error permission_denied_message, []) ∧
    set_priority m pid nice os = (Except.error permission_denied_message, []) ∧
    kill_descendants m pid os = (Except.error permission_denied_message, []) ∧
    batch_kill m pids force os = ((0, pids.length), []) ∧
    batch_pause m pids os = ((0, pids.length), []) ∧
    batch_resume m pids os = ((0, pids.length), []) := by
  have hchk : check_admin_privilege m = Except.error permission_denied_message := by
    simp [check_admin_privilege, h]
  refine ⟨?_, ?_, ?_, ?_, ?_, ?_, ?_, ?_, ?_⟩
  · simp [kill_process, hchk]
  · simp [terminate_process, hchk]
  · simp [pause_process, hchk]
  · simp [resume_process, hchk]
  · simp [set_priority, hchk]
  · simp [kill_descendants, hchk]
  · rw [batch_kill_spec]
    simp [kill_process, terminate_process, hchk, exceptOk]
  · rw [batch_pause_spec]
    simp [pause_process, hchk, exceptOk]
  · rw [batch_resume_spec]
    simp [resume_process, hchk, exceptOk]

/-- A concrete Normal-privilege user and manager. -/
def userNormal : User := { id := 1000, name := "guest", privilege := Privilege.Normal }

/-- A manager whose active session is the Normal-privilege user. -/
def mgrNormal : Manager :=
  { processes := [], active_user := userNormal, root_pid := 1,
    previous_cpu_times := [] }

theorem c2_permission_denied_no_os_call_witness :
    mgrNormal.active_user.privilege ≠ Privilege.Admin ∧
    (kill_process mgrNormal 7 (fun _ => true) =
        (Except.error permission_denied_message, []) ∧
      terminate_process mgrNormal 7 (fun _ => true) =
        (Except.error permission_denied_message, []) ∧
      pause_process mgrNormal 7 (fun _ => true) =
        (Except.error permission_denied_message, []) ∧
      resume_process mgrNormal 7 (fun _ => true) =
        (Except.error permission_denied_message, []) ∧
      set_priority mgrNormal 7 5 (fun _ => true) =
        (Except.error permission_denied_message, []) ∧
      kill_descendants mgrNormal 7 (fun _ => true) =
        (Except.error permission_denied_message, []) ∧
      batch_kill mgrNormal [3, 4] true (fun _ => true) = ((0, [3, 4].length), []) ∧
      batch_pause mgrNormal [3, 4] (fun _ => true) = ((0, [3, 4].length), []) ∧
      batch_resume mgrNormal [3, 4] (fun _ => true) = ((0, [3, 4].length), [])) :=
  ⟨by decide,
    c2_permission_denied_no_os_call mgrNormal 7 5 [3, 4] true (fun _ => true)
      (by decide)⟩

/-- C3: when the process-enumeration primitive itself fails, `refresh`
returns a failure and both the process table and the per-pid CPU-time
history are exactly the ones passed in — no partial update is visible.  The
same holds through the `Manager::refresh` wrapper. -/
theorem c3_refresh_enum_failure_state_unchanged
    (m : Manager) (msg : String) (now num_cores hz : ℚ)
    (table : List (Nat × Process)) (prev : List (Nat × Nat × ℚ)) :
    refresh_processes (Except.error msg) now num_cores hz table prev =
      (table, prev, Except.error ("Failed to read process list: " ++ msg)) ∧
    Manager.refresh m (Except.error msg) now num_cores hz =
      (m, Except.error ("Failed to read process list: " ++ msg)) :=
  ⟨rfl, rfl⟩

/-- C6: a batch operation attempts every target (one OS call per pid, in
order), records per-pid success or failure independently, and returns the
aggregate counts of successes and failures, which always sum to the number
of targets — it never aborts on the first failure. -/
theorem c6_batch_aggregate (m : Manager) (pids : List Nat) (force : Bool)
    (os : OsCall → Bool) (h : m.active_user.privilege = Privilege.Admin) :
    (batch_kill m pids force os =
      ((pids.countP (fun p => os (OsCall.signal p
          (if force then Signal.SIGKILL else Signal.SIGTERM))),
        pids.countP (fun p => !os (OsCall.signal p
          (if force then Signal.SIGKILL else Signal.SIGTERM)))),
        pids.map (fun p => OsCall.signal p
          (if force then Signal.SIGKILL else Signal.SIGTERM))) ∧
      (batch_kill m pids force os).1.1 + (batch_kill m pids force os).1.2 =
        pids.length) ∧
    (batch_pause m pids os =
      ((pids.countP (fun p => os (OsCall.signal p Signal.SIGSTOP)),
        pids.countP (fun p => !os (OsCall.signal p Signal.SIGSTOP))),
        pids.map (fun p => OsCall.signal p Signal.SIGSTOP)) ∧
      (batch_pause m pids os).1.1 + (batch_pause m pids os).1.2 =
        pids.length) ∧
    (batch_resume m pids os =
      ((pids.countP (fun p => os (OsCall.signal p Signal.SIGCONT)),
        pids.countP (fun p => !os (OsCall.signal p Signal.SIGCONT))),
        pids.map (fun p => OsCall.signal p Signal.SIGCONT)) ∧
      (batch_resume m pids os).1.1 + (batch_resume m pids os).1.2 =
        pids.length) := by
  have hchk : check_admin_privilege m = Except.ok () := by
    simp [check_admin_privilege, h]
  have hkill : ∀ p : Nat, kill_process m p os =
      (if os (OsCall.signal p Signal.SIGKILL) then Except.ok () else
        Except.error ("Failed to send SIGKILL to PID " ++ toString p),
        [OsCall.signal p Signal.SIGKILL]) := by
    intro p; simp [kill_process, hchk]
  have hterm : ∀ p : Nat, terminate_process m p os =
      (if os (OsCall.signal p Signal.SIGTERM) then Except.ok () else
        Except.error ("Failed to send SIGTERM to PID " ++ toString p),
        [OsCall.signal p Signal.SIGTERM]) := by
    intro p; simp [terminate_process, hchk]
  have hpause : ∀ p : Nat, pause_process m p os =
      (if os (OsCall.signal p Signal.SIGSTOP) then Except.ok () else
        Except.error ("Failed to pause PID " ++ toString p),
        [OsCall.signal p Signal.SIGSTOP]) := by
    intro p; simp [pause_process, hchk]
  have hres : ∀ p : Nat, resume_process m p os =
      (if os (OsCall.signal p Signal.SIGCONT) then Except.ok () else
        Except.error ("Failed to resume PID " ++ toString p),
        [OsCall.signal p Signal.SIGCONT]) := by
    intro p; simp [resume_process, hchk]
  have hOk : ∀ (c : OsCall) (s : String),
      exceptOk (if os c then Except.ok () else Except.error s) = os c := by
    intro c s; cases hc : os c <;> simp [hc, exceptOk]
  refine ⟨⟨?_, ?_⟩, ⟨?_, ?_⟩, ⟨?_, ?_⟩⟩
  · rw [batch_kill_spec]
    cases force <;>
      simp [hkill, hterm, hOk, flatMap_single]
  · rw [batch_kill_spec]
    cases force <;> simp [hkill, hterm, hOk] <;>
      exact countP_bool_split _ pids
  · rw [batch_pause_spec]
    simp [hpause, hOk, flatMap_single]
  · rw [batch_pause_spec]
    simp [hpause, hOk]
    exact countP_bool_split _ pids
  · rw [batch_resume_spec]
    simp [hres, hOk, flatMap_single]
  · rw [batch_resume_spec]
    simp [hres, hOk]
    exact countP_bool_split _ pids

/-- A concrete Admin user and manager. -/
def userAdmin : User := { id := 0, name := "root", privilege := Privilege.Admin }

/-- A manager whose active session is the Admin user (empty table: the batch
functions never consult the table). -/
def mgrAdminEmpty : Manager :=
  { processes := [], active_user := userAdmin, root_pid := 1,
    previous_cpu_times := [] }

/-- An OS behaviour under which exactly the SIGKILL aimed at pid 11 fails. -/
def osFail11 : OsCall → Bool :=
  fun c => decide (c ≠ OsCall.signal 11 Signal.SIGKILL)

theorem c6_batch_aggregate_witness :
    mgrAdminEmpty.active_user.privilege = Privilege.Admin ∧
    (batch_kill mgrAdminEmpty [10, 11, 12] true osFail11).1 = (2, 1) := by
  have h := c6_batch_aggregate mgrAdminEmpty [10, 11, 12] true osFail11 rfl
  refine ⟨rfl, ?_⟩
  rw [h.1.1]
  decide

theorem lookup_cons_ne {β : Type} (hk a : Nat) (b : β) (l : List (Nat × β))
    (h : a ≠ hk) : ((hk, b) :: l).lookup a = l.lookup a := by
  rw [List.lookup_cons]
  have hb : (a == hk) = false := by simp [h]
  rw [hb]

theorem lookup_mem {β : Type} (l : List (Nat × β)) (k : Nat) (v : β)
    (h : l.lookup k = some v) : (k, v) ∈ l := by
  induction l with
  | nil => simp at h
  | cons e l ih =>
    rcases e with ⟨a, b⟩
    by_cases hk : k = a
    · subst hk
      simp at h
      simp [h]
    · rw [lookup_cons_ne a k b l hk] at h
      exact List.mem_cons_of_mem _ (ih h)

theorem lookup_mem_keys {β : Type} (l : List (Nat × β)) (k : Nat) (v : β)
    (h : l.lookup k = some v) : k ∈ l.map Prod.fst :=
  List.mem_map_of_mem Prod.fst (lookup_mem l k v h)

theorem mem_lookup_of_nodup {β : Type} (l : List (Nat × β)) (k : Nat) (v : β)
    (hmem : (k, v) ∈ l) (hnd : (l.map Prod.fst).Nodup) :
    l.lookup k = some v := by
  induction l with
  | nil => simp at hmem
  | cons e l ih =>
    rcases e with ⟨a, b⟩
    simp only [List.map_cons, List.nodup_cons] at hnd
    rcases List.mem_cons.mp hmem with h | h
    · rcases Prod.mk.injEq .. ▸ h with ⟨rfl, rfl⟩
      simp
    · have hka : k ≠ a := by
        rintro rfl
        exact hnd.1 (List.mem_map_of_mem Prod.fst h)
      rw [lookup_cons_ne a k b l hka]
      exact ih h hnd.2

theorem lookup_filter_ne {β : Type} (l : List (Nat × β)) (k a : Nat)
    (h : a ≠ k) :
    (l.filter (fun e => decide (e.1 ≠ k))).lookup a = l.lookup a := by
  induction l with
  | nil => simp
  | cons e l ih =>
    rcases e with ⟨x, b⟩
    simp only [List.filter_cons, decide_eq_true_eq]
    by_cases hx : x = k
    · rw [if_neg (by simp [hx])]
      rw [ih, lookup_cons_ne x a b l (hx ▸ h)]
    · rw [if_pos hx]
      by_cases hax : a = x
      · subst hax
        simp
      · rw [lookup_cons_ne x a b _ hax, lookup_cons_ne x a b l hax]
        exact ih

theorem alInsert_lookup_self {β : Type} (k : Nat) (v : β) (l : List (Nat × β)) :
    (alInsert k v l).lookup k = some v := by
  simp [alInsert]

theorem alInsert_lookup_ne {β : Type} (k a : Nat) (v : β) (l : List (Nat × β))
    (h : a ≠ k) : (alInsert k v l).lookup a = l.lookup a := by
  rw [alInsert, lookup_cons_ne k a v _ h, lookup_filter_ne l k a h]

theorem lookup_filter_key {β : Type} (l : List (Nat × β)) (q : Nat → Bool)
    (k : Nat) (hq : q k = true) :
    (l.filter (fun e => q e.1)).lookup k = l.lookup k := by
  induction l with
  | nil => simp
  | cons e l ih =>
    rcases e with ⟨x, b⟩
    simp only [List.filter_cons]
    by_cases hkx : k = x
    · subst hkx
      rw [if_pos hq]
      simp
    · cases hx : q x
      · rw [if_neg (by simp [hx])]
        rw [ih, lookup_cons_ne x k b l hkx]
      · rw [if_pos (by simp)]
        rw [lookup_cons_ne x k b _ hkx, lookup_cons_ne x k b l hkx]
        exact ih

theorem lookup_filter_isSome {β γ : Type} (l : List (Nat × β))
    (N : List (Nat × γ)) (k : Nat) (hk : (N.lookup k).isSome = true) :
    (l.filter (fun e => (N.lookup e.1).isSome)).lookup k = l.lookup k :=
  lookup_filter_key l (fun a => (N.lookup a).isSome) k hk

theorem refreshStep_preserves (now num_cores hz : ℚ) (st : RefreshState)
    (e : ProcEntry) (k : Nat) (h : e.pid ≠ k) :
    ((refreshStep now num_cores hz st e).newProcs.lookup k
        = st.newProcs.lookup k) ∧
    ((refreshStep now num_cores hz st e).prev.lookup k = st.prev.lookup k) := by
  have hk : k ≠ e.pid := fun hc => h hc.symm
  rcases e with ⟨pid, info, ct⟩
  simp only [ProcEntry.pid] at hk
  cases info with
  | none => exact ⟨rfl, rfl⟩
  | some proc =>
    cases hprev : st.prev.lookup pid with
    | none =>
      cases ct with
      | none =>
        simp [refreshStep, hprev, alInsert_lookup_ne _ _ _ _ hk]
      | some c =>
        simp [refreshStep, hprev, alInsert_lookup_ne _ _ _ _ hk]
    | some pp =>
      rcases pp with ⟨pt, ptime⟩
      cases ct with
      | none =>
        simp [refreshStep, hprev, alInsert_lookup_ne _ _ _ _ hk]
      | some c =>
        simp [refreshStep, hprev, alInsert_lookup_ne _ _ _ _ hk]

theorem foldl_refreshStep_preserves (now num_cores hz : ℚ) (k : Nat) :
    ∀ (entries : List ProcEntry) (st : RefreshState),
      (∀ e ∈ entries, e.pid ≠ k) →
      ((entries.foldl (refreshStep now num_cores hz) st).newProcs.lookup k
          = st.newProcs.lookup k) ∧
      ((entries.foldl (refreshStep now num_cores hz) st).prev.lookup k
          = st.prev.lookup k) := by
  intro entries
  induction entries with
  | nil => exact fun st _ => ⟨rfl, rfl⟩
  | cons e l ih =>
    intro st h
    have h1 := refreshStep_preserves now num_cores hz st e k
      (h e (List.mem_cons_self e l))
    have h2 := ih (refreshStep now num_cores hz st e)
      (fun x hx => h x (List.mem_cons_of_mem _ hx))
    simp only [List.foldl_cons]
    exact ⟨h2.1.trans h1.1, h2.2.trans h1.2⟩

theorem entries_split_facts (entries : List ProcEntry) (e : ProcEntry)
    (hnd : (entries.map ProcEntry.pid).Nodup) (he : e ∈ entries) :
    ∃ l1 l2, entries = l1 ++ e :: l2 ∧
      (∀ x ∈ l1, x.pid ≠ e.pid) ∧ (∀ x ∈ l2, x.pid ≠ e.pid) := by
  obtain ⟨l1, l2, rfl⟩ := List.append_of_mem he
  refine ⟨l1, l2, rfl, ?_, ?_⟩
  · intro x hx hpe
    rw [List.map_append, List.map_cons] at hnd
    rcases List.nodup_append.mp hnd with ⟨-, -, hdisj⟩
    exact hdisj (List.mem_map_of_mem ProcEntry.pid hx)
      (by simp [hpe])
  · intro x hx hpe
    rw [List.map_append, List.map_cons] at hnd
    rcases List.nodup_append.mp hnd with ⟨-, hnd2, -⟩
    rcases List.nodup_cons.mp hnd2 with ⟨hnotin, -⟩
    exact hnotin (hpe ▸ List.mem_map_of_mem ProcEntry.pid hx)

theorem refresh_entry_lookup (now num_cores hz : ℚ)
    (prev0 : List (Nat × Nat × ℚ)) (entries : List ProcEntry)
    (e : ProcEntry)
    (hnd : (entries.map ProcEntry.pid).Nodup) (he : e ∈ entries) :
    ∃ stmid : RefreshState,
      stmid.prev.lookup e.pid = prev0.lookup e.pid ∧
      ((entries.foldl (refreshStep now num_cores hz)
          { newProcs := [], prev := prev0, loaded := 0 }).newProcs.lookup e.pid
        = (refreshStep now num_cores hz stmid e).newProcs.lookup e.pid) ∧
      ((entries.foldl (refreshStep now num_cores hz)
          { newProcs := [], prev := prev0, loaded := 0 }).prev.lookup e.pid
        = (refreshStep now num_cores hz stmid e).prev.lookup e.pid) := by
  obtain ⟨l1, l2, rfl, h1, h2⟩ := entries_split_facts entries e hnd he
  refine ⟨l1.foldl (refreshStep now num_cores hz)
    { newProcs := [], prev := prev0, loaded := 0 }, ?_, ?_, ?_⟩
  · exact (foldl_refreshStep_preserves now num_cores hz e.pid l1 _ h1).2
  · rw [List.foldl_append, List.foldl_cons]
    exact (foldl_refreshStep_preserves now num_cores hz e.pid l2 _ h2).1
  · rw [List.foldl_append, List.foldl_cons]
    exact (foldl_refreshStep_preserves now num_cores hz e.pid l2 _ h2).2

/-- C4: the CPU-usage estimator computes
`percent = (Δticks / tickFrequency) / ΔwallSeconds * 100 / coreCount` from
the current and previous samples of a pid: for any pid enumerated with a
previous sample `(pt, ptime)` in the history and a current CPU-time reading
`ct` at wall-clock `now` with `now - ptime > 0`, the refreshed record's CPU
percentage is exactly that formula (tick delta saturating at zero). -/
theorem c4_cpu_percent_formula
    (table : List (Nat × Process)) (prev : List (Nat × Nat × ℚ))
    (now num_cores hz : ℚ) (entries : List ProcEntry)
    (pid : Nat) (proc : Process) (ct pt : Nat) (ptime : ℚ)
    (hnd : (entries.map ProcEntry.pid).Nodup)
    (he : ProcEntry.mk pid (some proc) (some ct) ∈ entries)
    (hprev : prev.lookup pid = some (pt, ptime))
    (hpos : 0 < now - ptime) :
    (refresh_processes (Except.ok entries) now num_cores hz table prev).1.lookup pid
      = some (set_cpu_percent proc
          ((((ct - pt : Nat) : ℚ) / hz) / (now - ptime) * 100 / num_cores)) := by
  obtain ⟨stmid, hmidprev, hnew, -⟩ :=
    refresh_entry_lookup now num_cores hz prev entries
      (ProcEntry.mk pid (some proc) (some ct)) hnd he
  simp only [ProcEntry.pid] at hmidprev hnew
  rw [hprev] at hmidprev
  show (entries.foldl (refreshStep now num_cores hz)
      { newProcs := [], prev := prev, loaded := 0 }).newProcs.lookup pid = _
  rw [hnew]
  have hmax : max (now - ptime) 0 = now - ptime := max_eq_left (le_of_lt hpos)
  simp [refreshStep, hmidprev, alInsert_lookup_self, cpuPercent, hmax, hpos]

/-- A concrete process record for the witnesses. -/
def proc7 : Process :=
  { process_id := 7, user_id := 0, name := "demo", parent_id := some 1,
    pcb_data := { cpu_percent := 0, memory_rss_mb := 1, state := 'S',
                  priority := 0, uptime_seconds := 3 } }

theorem c4_cpu_percent_formula_witness :
    ([ProcEntry.mk 7 (some proc7) (some 200)].map ProcEntry.pid).Nodup ∧
    (0 : ℚ) < 1 - 0 ∧
    (refresh_processes (Except.ok [ProcEntry.mk 7 (some proc7) (some 200)])
        1 1 100 [] [(7, (100, 0))]).1.lookup 7
      = some (set_cpu_percent proc7 100) := by
  refine ⟨by decide, by norm_num, ?_⟩
  have h := c4_cpu_percent_formula [] [(7, (100, 0))] 1 1 100
    [ProcEntry.mk 7 (some proc7) (some 200)] 7 proc7 200 100 0
    (by decide) (by simp) (by simp) (by norm_num)
  rw [h]
  norm_num

/-- C5: a pid observed for the first time in a refresh cycle (no previous
CPU-time sample in the history) gets a record with CPU percentage exactly 0,
and when its CPU-time read succeeds the history is seeded with that pid's
current sample `(ticks, now)` — no percentage is computed from lifetime CPU
time. -/
theorem c5_first_sample_zero_percent
    (table : List (Nat × Process)) (prev : List (Nat × Nat × ℚ))
    (now num_cores hz : ℚ) (entries : List ProcEntry)
    (pid : Nat) (proc : Process) (ctOpt : Option Nat)
    (hnd : (entries.map ProcEntry.pid).Nodup)
    (he : ProcEntry.mk pid (some proc) ctOpt ∈ entries)
    (hprev : prev.lookup pid = none) :
    (refresh_processes (Except.ok entries) now num_cores hz table prev).1.lookup pid
      = some (set_cpu_percent proc 0) ∧
    (∀ ctv, ctOpt = some ctv →
      (refresh_processes (Except.ok entries) now num_cores hz table prev).2.1.lookup pid
        = some (ctv, now)) := by
  obtain ⟨stmid, hmidprev, hnew, hprev2⟩ :=
    refresh_entry_lookup now num_cores hz prev entries
      (ProcEntry.mk pid (some proc) ctOpt) hnd he
  simp only [ProcEntry.pid] at hmidprev hnew hprev2
  rw [hprev] at hmidprev
  have hnewval :
      (entries.foldl (refreshStep now num_cores hz)
        { newProcs := [], prev := prev, loaded := 0 }).newProcs.lookup pid
      = some (set_cpu_percent proc 0) := by
    rw [hnew]
    cases ctOpt with
    | none => simp [refreshStep, hmidprev, alInsert_lookup_self]
    | some ctv => simp [refreshStep, hmidprev, alInsert_lookup_self]
  refine ⟨hnewval, ?_⟩
  intro ctv hct
  subst hct
  show ((entries.foldl (refreshStep now num_cores hz)
      { newProcs := [], prev := prev, loaded := 0 }).prev.filter _).lookup pid
      = some (ctv, now)
  rw [lookup_filter_isSome _ _ pid (by simp [hnewval]), hprev2]
  simp [refreshStep, hmidprev, alInsert_lookup_self]

theorem c5_first_sample_zero_percent_witness :
    ([ProcEntry.mk 7 (some proc7) (some 42)].map ProcEntry.pid).Nodup ∧
    ([] : List (Nat × Nat × ℚ)).lookup 7 = none ∧
    (refresh_processes (Except.ok [ProcEntry.mk 7 (some proc7) (some 42)])
        1 1 100 [] []).1.lookup 7 = some (set_cpu_percent proc7 0) ∧
    (refresh_processes (Except.ok [ProcEntry.mk 7 (some proc7) (some 42)])
        1 1 100 [] []).2.1.lookup 7 = some ((42 : Nat), (1 : ℚ)) := by
  have h := c5_first_sample_zero_percent [] [] 1 1 100
    [ProcEntry.mk 7 (some proc7) (some 42)] 7 proc7 (some 42)
    (by decide) (by simp) rfl
  exact ⟨by decide, rfl, h.1, h.2 42 rfl⟩

/-- C9: after every refresh call the invariant
`keys(history) ⊆ keys(table)` holds or is preserved: on a successful
enumeration every pid still present in the CPU-time history belongs to the
new process table (the history is pruned of stale pids), and on a failed
enumeration both the table and the history are returned unchanged. -/
theorem c9_history_subset_table
    (enum : Except String (List ProcEntry)) (now num_cores hz : ℚ)
    (table : List (Nat × Process)) (prev : List (Nat × Nat × ℚ)) :
    (∀ entries, enum = Except.ok entries →
      ∀ k ∈ ((refresh_processes enum now num_cores hz table prev).2.1.map
          Prod.fst),
        k ∈ (refresh_processes enum now num_cores hz table prev).1.map
          Prod.fst) ∧
    (∀ msg, enum = Except.error msg →
      (refresh_processes enum now num_cores hz table prev).1 = table ∧
      (refresh_processes enum now num_cores hz table prev).2.1 = prev) := by
  constructor
  · rintro entries rfl k hk
    simp only [refresh_processes] at hk ⊢
    rcases List.mem_map.mp hk with ⟨⟨k', v⟩, hmem, hfst⟩
    rcases List.mem_filter.mp hmem with ⟨hmem', hpass⟩
    simp only at hfst
    subst hfst
    have hpass2 : ∃ w, (k', w) ∈
        ((entries.foldl (refreshStep now num_cores hz)
          { newProcs := [], prev := prev, loaded := 0 }).newProcs) := by
      simpa using hpass
    rcases hpass2 with ⟨w, hw⟩
    exact List.mem_map_of_mem Prod.fst hw
  · rintro msg rfl
    exact ⟨rfl, rfl⟩

theorem c9_history_subset_table_witness :
    (7 : Nat) ∈ ((refresh_processes
        (Except.ok [ProcEntry.mk 7 (some proc7) (some 42)]) 1 1 100
        [] [(7, (5, 0)), (9, (5, 0))]).2.1.map Prod.fst) ∧
    (7 : Nat) ∈ ((refresh_processes
        (Except.ok [ProcEntry.mk 7 (some proc7) (some 42)]) 1 1 100
        [] [(7, (5, 0)), (9, (5, 0))]).1.map Prod.fst) :=
  ⟨by decide,
    (c9_history_subset_table
      (Except.ok [ProcEntry.mk 7 (some proc7) (some 42)]) 1 1 100
      [] [(7, (5, 0)), (9, (5, 0))]).1 _ rfl 7 (by decide)⟩

/-! ### Tree-builder soundness machinery

The Rust `build_node` recursion visits, from the root downwards, chains
`root, q1, q2, ...` in which each `q (i+1)` is a table entry whose
`parent_id` is the pid of `q i` and whose pid differs from the root pid.
Because pids are unique table keys and the root entry is excluded from the
child index, such a chain can never revisit a pid, which bounds the
recursion depth by the table size. -/

/-- One downward step of the `build_node` recursion, viewed on pids: `y` is
a non-root table key whose entry's parent is `x`. -/
def ChainLink (table : List (Nat × Process)) (rootPid : Nat) (x y : Nat) :
    Prop :=
  y ≠ rootPid ∧ ∃ q : Process, table.lookup y = some q ∧ q.parent_id = some x

/-- The invariant carried through the `build_node` recursion: `anc` is the
pid chain from the root down to the current process `p` (inclusive), it is
linked by `ChainLink` and never revisits a pid. -/
def ChainInv (table : List (Nat × Process)) (rootPid : Nat)
    (anc : List Nat) (p : Process) : Prop :=
  ∃ rest, anc = rootPid :: rest ∧
    List.Chain (ChainLink table rootPid) rootPid rest ∧
    anc.Nodup ∧ anc.getLast? = some p.process_id

theorem childList_facts (table : List (Nat × Process)) (rootPid k : Nat)
    (hwf : WfTable table) (c : Process) (hc : c ∈ childList table rootPid k) :
    table.lookup c.process_id = some c ∧ c.process_id ≠ rootPid ∧
    c.parent_id = some k ∧ c.process_id ∈ table.map Prod.fst := by
  rcases List.mem_map.mp hc with ⟨e, hmem, hsnd⟩
  rcases List.mem_filter.mp hmem with ⟨he, hcond⟩
  simp only [decide_eq_true_eq] at hcond
  have hkey : e.1 = c.process_id := by
    rw [← hsnd]
    exact (hwf.2 e he).symm
  have hmem2 : (c.process_id, c) ∈ table := by
    have hpair : e = (c.process_id, c) := by
      rcases e with ⟨pid, q⟩
      simp only at hsnd hkey
      rw [hkey, hsnd]
    rw [← hpair]
    exact he
  refine ⟨mem_lookup_of_nodup table _ c hmem2 hwf.1, ?_, ?_,
    List.mem_map_of_mem Prod.fst hmem2⟩
  · rw [← hkey]
    exact hcond.1
  · rw [← hsnd]
    exact hcond.2

theorem chain_last_link {R : Nat → Nat → Prop} :
    ∀ (l : List Nat) (a b : Nat), List.Chain R a (l ++ [b]) →
      ∃ x, (a :: l).getLast? = some x ∧ R x b := by
  intro l
  induction l with
  | nil =>
    intro a b h
    rcases List.chain_cons.mp h with ⟨hr, -⟩
    exact ⟨a, rfl, hr⟩
  | cons d l' ih =>
    intro a b h
    rw [List.cons_append] at h
    rcases List.chain_cons.mp h with ⟨-, h2⟩
    rcases ih d b h2 with ⟨x, hx, hr⟩
    exact ⟨x, by rw [List.getLast?_cons_cons]; exact hx, hr⟩

theorem chain_snoc {R : Nat → Nat → Prop} :
    ∀ (l : List Nat) (a b : Nat), List.Chain R a l →
      (∀ x, (a :: l).getLast? = some x → R x b) →
      List.Chain R a (l ++ [b]) := by
  intro l
  induction l with
  | nil =>
    intro a b _ hlink
    exact List.chain_cons.mpr ⟨hlink a rfl, List.Chain.nil⟩
  | cons d l' ih =>
    intro a b h hlink
    rcases List.chain_cons.mp h with ⟨hr, h2⟩
    rw [List.cons_append]
    refine List.chain_cons.mpr ⟨hr, ih d b h2 ?_⟩
    intro x hx
    exact hlink x (by rw [List.getLast?_cons_cons]; exact hx)

theorem chain_no_revisit (table : List (Nat × Process)) (rootPid : Nat)
    (rest : List Nat) (ppid : Nat)
    (hchain : List.Chain (ChainLink table rootPid) rootPid rest)
    (hnd : (rootPid :: rest).Nodup)
    (hlast : (rootPid :: rest).getLast? = some ppid)
    (c : Process) (hcl : table.lookup c.process_id = some c)
    (hcne : c.process_id ≠ rootPid) (hpar : c.parent_id = some ppid) :
    c.process_id ∉ rootPid :: rest := by
  intro hmem
  have hmem' : c.process_id ∈ rest := by
    rcases List.mem_cons.mp hmem with h | h
    · exact absurd h hcne
    · exact h
  obtain ⟨l1, l2, hrest⟩ := List.append_of_mem hmem'
  subst hrest
  have hsplit := (List.chain_split.mp hchain).1
  obtain ⟨x, hx, hlink⟩ := chain_last_link l1 rootPid c.process_id hsplit
  obtain ⟨-, q, hq, hqpar⟩ := hlink
  have hqc : q = c := by
    rw [hcl] at hq
    exact (Option.some.inj hq).symm
  have hxppid : x = ppid := by
    have h1 : some x = some ppid := by
      rw [← hqpar, hqc, hpar]
    exact Option.some.inj h1
  have hxlast : (rootPid :: l1).getLast? = some ppid := hxppid ▸ hx
  have hppid1 : ppid ∈ rootPid :: l1 := List.mem_of_getLast?_eq_some hxlast
  have hndapp : ((rootPid :: l1) ++ c.process_id :: l2).Nodup := by
    simpa using hnd
  have hnd' : (rootPid :: l1).Disjoint (c.process_id :: l2) :=
    ((List.nodup_append.mp hndapp).2).2
  cases l2 with
  | nil =>
    have hconcat : ((rootPid :: l1) ++ [c.process_id]).getLast?
        = some c.process_id := List.getLast?_concat _
    have hlast' : ((rootPid :: l1) ++ [c.process_id]).getLast? = some ppid := by
      simpa using hlast
    have hcp : c.process_id = ppid := Option.some.inj (hconcat ▸ hlast')
    exact hnd' (hcp ▸ hppid1 : ppid ∈ rootPid :: l1)
      (hcp ▸ List.mem_cons_self c.process_id [])
  | cons d l2' =>
    have hlast2 : (d :: l2').getLast? = some ppid := by
      have hre : (rootPid :: (l1 ++ c.process_id :: d :: l2'))
          = (((rootPid :: l1) ++ [c.process_id]) ++ (d :: l2')) := by simp
      rw [hre, List.getLast?_append] at hlast
      have hne : d :: l2' ≠ [] := by simp
      have hsome := List.getLast?_eq_getLast (d :: l2') hne
      rw [hsome] at hlast ⊢
      simp only [Option.or_some] at hlast
      exact hlast
    have hppid2 : ppid ∈ d :: l2' := List.mem_of_getLast?_eq_some hlast2
    exact hnd' hppid1 (List.mem_cons_of_mem _ hppid2)

/-- Soundness and termination of the `build_node` recursion of
`src/manager/batch.rs`: under the chain invariant and with fuel exceeding
the number of table keys not yet on the ancestor chain, the builder
succeeds, its root carries the current process, every node of the resulting
tree is a table entry outside the ancestor chain, every child edge comes
from the child index, and no node shares its pid with a strict descendant. -/
theorem build_sound (table : List (Nat × Process)) (rootPid : Nat)
    (hwf : WfTable table) :
    ∀ (fuel : Nat) (p : Process) (anc : List Nat),
      ChainInv table rootPid anc p →
      ((table.map Prod.fst).toFinset \ anc.toFinset).card < fuel →
      ∃ t, buildNodeFuel (childList table rootPid) fuel p = some t ∧
        t.process = p ∧
        (∀ d, Descendant t d → d.process.process_id ∉ anc ∧
          d.process.process_id ∈ table.map Prod.fst) ∧
        (∀ a, (a = t ∨ Descendant t a) → ∀ c, c ∈ a.children →
          c.process ∈ childList table rootPid a.process.process_id) ∧
        (∀ a d, (a = t ∨ Descendant t a) → Descendant a d →
          d.process.process_id ≠ a.process.process_id) := by
  intro fuel
  induction fuel with
  | zero =>
    intro p anc _ hcard
    exact absurd hcard (by omega)
  | succ n ih =>
    intro p anc hinv hcard
    obtain ⟨rest, hanc, hchain, hnd, hlast⟩ := hinv
    have hpanc : p.process_id ∈ anc := List.mem_of_getLast?_eq_some hlast
    have hchild : ∀ c, c ∈ childList table rootPid p.process_id →
        c.process_id ∉ anc ∧
        ChainInv table rootPid (anc ++ [c.process_id]) c ∧
        ((table.map Prod.fst).toFinset \
          (anc ++ [c.process_id]).toFinset).card < n := by
      intro c hc
      obtain ⟨hlk, hne, hpar, hkey⟩ :=
        childList_facts table rootPid p.process_id hwf c hc
      have hnd0 : (rootPid :: rest).Nodup := hanc ▸ hnd
      have hlast0 : (rootPid :: rest).getLast? = some p.process_id :=
        hanc ▸ hlast
      have hnotin : c.process_id ∉ anc := by
        rw [hanc]
        exact chain_no_revisit table rootPid rest p.process_id
          hchain hnd0 hlast0 c hlk hne hpar
      have hinv' : ChainInv table rootPid (anc ++ [c.process_id]) c := by
        refine ⟨rest ++ [c.process_id], by rw [hanc]; simp, ?_, ?_, ?_⟩
        · refine chain_snoc rest rootPid c.process_id hchain ?_
          intro x hx
          have hxp : x = p.process_id := by
            rw [hlast0] at hx
            exact (Option.some.inj hx).symm
          rw [hxp]
          exact ⟨hne, c, hlk, hpar⟩
        · have : (anc ++ [c.process_id]).Nodup := by
            refine List.Nodup.append hnd (List.nodup_singleton _) ?_
            intro x hx hx'
            rcases List.mem_singleton.mp hx' with rfl
            exact hnotin hx
          simpa [hanc] using this
        · have : (anc ++ [c.process_id]).getLast? = some c.process_id :=
            List.getLast?_concat _
          simpa [hanc] using this
      refine ⟨hnotin, hinv', ?_⟩
      have hsub : (table.map Prod.fst).toFinset \
          (anc ++ [c.process_id]).toFinset ⊆
          (table.map Prod.fst).toFinset \ anc.toFinset := by
        intro x hx
        rcases Finset.mem_sdiff.mp hx with ⟨hx1, hx2⟩
        refine Finset.mem_sdiff.mpr ⟨hx1, fun hin => hx2 ?_⟩
        rw [List.toFinset_append]
        exact Finset.mem_union_left _ hin
      have hcmem : c.process_id ∈
          (table.map Prod.fst).toFinset \ anc.toFinset := by
        refine Finset.mem_sdiff.mpr ⟨List.mem_toFinset.mpr hkey, ?_⟩
        exact fun hin => hnotin (List.mem_toFinset.mp hin)
      have hcnot : c.process_id ∉ (table.map Prod.fst).toFinset \
          (anc ++ [c.process_id]).toFinset := by
        intro hin
        rcases Finset.mem_sdiff.mp hin with ⟨-, hx2⟩
        refine hx2 ?_
        rw [List.toFinset_append]
        refine Finset.mem_union_right _ ?_
        simp
      have hlt : ((table.map Prod.fst).toFinset \
          (anc ++ [c.process_id]).toFinset).card <
          ((table.map Prod.fst).toFinset \ anc.toFinset).card := by
        refine Finset.card_lt_card ?_
        exact (Finset.ssubset_iff_of_subset hsub).mpr
          ⟨c.process_id, hcmem, hcnot⟩
      omega
    have kids : ∀ cs : List Process,
        (∀ c ∈ cs, c ∈ childList table rootPid p.process_id) →
        ∃ ts, listOptMap (buildNodeFuel (childList table rootPid) n) cs
            = some ts ∧
          ∀ tc ∈ ts, ∃ c, c ∈ childList table rootPid p.process_id ∧
            tc.process = c ∧ c.process_id ∉ anc ∧
            c.process_id ∈ table.map Prod.fst ∧
            (∀ d, Descendant tc d →
              d.process.process_id ∉ anc ++ [c.process_id] ∧
              d.process.process_id ∈ table.map Prod.fst) ∧
            (∀ a, (a = tc ∨ Descendant tc a) → ∀ c2, c2 ∈ a.children →
              c2.process ∈ childList table rootPid a.process.process_id) ∧
            (∀ a d, (a = tc ∨ Descendant tc a) → Descendant a d →
              d.process.process_id ≠ a.process.process_id) := by
      intro cs
      induction cs with
      | nil =>
        intro _
        exact ⟨[], rfl, by simp⟩
      | cons c cs' ihc =>
        intro hsub
        have hcin := hsub c (List.mem_cons_self c cs')
        obtain ⟨hnotin, hinv', hcard'⟩ := hchild c hcin
        obtain ⟨tc, htc, htcp, htcd, htcco, htcsafe⟩ :=
          ih c (anc ++ [c.process_id]) hinv' hcard'
        obtain ⟨ts', hts', hts'p⟩ :=
          ihc (fun x hx => hsub x (List.mem_cons_of_mem _ hx))
        refine ⟨tc :: ts', ?_, ?_⟩
        · simp [listOptMap, htc, hts']
        · intro t0 ht0
          rcases List.mem_cons.mp ht0 with rfl | h
          · obtain ⟨-, -, -, hkey⟩ :=
              childList_facts table rootPid p.process_id hwf c hcin
            exact ⟨c, hcin, htcp, hnotin, hkey, htcp ▸ htcd,
              htcco, htcsafe⟩
          · exact hts'p t0 h
    obtain ⟨ts, hts, htsp⟩ :=
      kids (childList table rootPid p.process_id) (fun c hc => hc)
    have havoid : ∀ d, Descendant (ProcessNode.mk p ts) d →
        d.process.process_id ∉ anc ∧
        d.process.process_id ∈ table.map Prod.fst := by
      intro d hd
      cases hd with
      | child hmem =>
        obtain ⟨c, hcin, hdp, hnotin, hkey, -, -, -⟩ := htsp d hmem
        rw [hdp]
        exact ⟨hnotin, hkey⟩
      | step hmem hdesc =>
        rename_i c0
        obtain ⟨c, hcin, hcp, hnotin, hkey, hdprop, -, -⟩ := htsp c0 hmem
        have hdd := hdprop d hdesc
        exact ⟨fun hin => hdd.1 (List.mem_append_left _ hin), hdd.2⟩
    have hchildok : ∀ a, (a = ProcessNode.mk p ts ∨
        Descendant (ProcessNode.mk p ts) a) → ∀ c2, c2 ∈ a.children →
        c2.process ∈ childList table rootPid a.process.process_id := by
      intro a ha c2 hc2
      rcases ha with rfl | hdesc
      · obtain ⟨c, hcin, hc2p, -, -, -, -, -⟩ := htsp c2 hc2
        rw [hc2p]
        exact hcin
      · cases hdesc with
        | child hmem =>
          obtain ⟨c, -, -, -, -, -, htcco, -⟩ := htsp a hmem
          exact htcco a (Or.inl rfl) c2 hc2
        | step hmem hdesc2 =>
          rename_i c0
          obtain ⟨c, -, -, -, -, -, htcco, -⟩ := htsp c0 hmem
          exact htcco a (Or.inr hdesc2) c2 hc2
    have hsafe : ∀ a d, (a = ProcessNode.mk p ts ∨
        Descendant (ProcessNode.mk p ts) a) → Descendant a d →
        d.process.process_id ≠ a.process.process_id := by
      intro a d ha had
      rcases ha with rfl | hdesc
      · have hdd := havoid d had
        intro heq
        exact hdd.1 (heq ▸ hpanc)
      · cases hdesc with
        | child hmem =>
          obtain ⟨c, -, -, -, -, -, -, htcsafe⟩ := htsp a hmem
          exact htcsafe a d (Or.inl rfl) had
        | step hmem hdesc2 =>
          rename_i c0
          obtain ⟨c, -, -, -, -, -, -, htcsafe⟩ := htsp c0 hmem
          exact htcsafe a d (Or.inr hdesc2) had
    refine ⟨ProcessNode.mk p ts, ?_, rfl, havoid, hchildok, hsafe⟩
    rw [buildNodeFuel_succ, hts]
    rfl

theorem descAux_nil : descAux [] = [] := by
  simp [descAux]

theorem descAux_cons (p : Process) (cs rest : List ProcessNode) :
    descAux (ProcessNode.mk p cs :: rest)
      = p.process_id :: (descAux cs ++ descAux rest) := by
  simp [descAux]

theorem desc_trans {t a d : ProcessNode} (h1 : Descendant t a)
    (h2 : Descendant a d) : Descendant t d := by
  induction h1 with
  | child hmem => exact Descendant.step hmem h2
  | step hmem _ ihd => exact Descendant.step hmem (ihd h2)

theorem desc_last_edge {t d : ProcessNode} (h : Descendant t d) :
    ∃ a, (a = t ∨ Descendant t a) ∧ d ∈ a.children := by
  induction h with
  | child hmem => exact ⟨_, Or.inl rfl, hmem⟩
  | step hmem hdesc iha =>
    rcases iha with ⟨a, ha, hda⟩
    rcases ha with rfl | ha
    · exact ⟨a, Or.inr (Descendant.child hmem), hda⟩
    · exact ⟨a, Or.inr (Descendant.step hmem ha), hda⟩

theorem descAux_split_of_mem :
    ∀ (ls : List ProcessNode) (a : ProcessNode), a ∈ ls →
      ∃ pre post, descAux ls
        = pre ++ (a.process.process_id :: descAux a.children) ++ post := by
  intro ls
  induction ls with
  | nil =>
    intro a ha
    simp at ha
  | cons hd rest ih =>
    intro a ha
    cases hd with
    | mk p cs =>
      rcases List.mem_cons.mp ha with rfl | hmem
      · refine ⟨[], descAux rest, ?_⟩
        rw [descAux_cons]
        simp [ProcessNode.process, ProcessNode.children]
      · rcases ih a hmem with ⟨pre, post, hsp⟩
        refine ⟨p.process_id :: descAux cs ++ pre, post, ?_⟩
        rw [descAux_cons, hsp]
        simp [List.append_assoc]

theorem descAux_split {t a : ProcessNode} (h : Descendant t a) :
    ∃ pre post, descAux t.children
      = pre ++ (a.process.process_id :: descAux a.children) ++ post := by
  induction h with
  | child hmem => exact descAux_split_of_mem _ _ hmem
  | @step t' cmid a' hmem hdesc iha =>
    rcases iha with ⟨pre, post, hsp⟩
    rcases descAux_split_of_mem _ _ hmem with ⟨pre2, post2, hsp2⟩
    refine ⟨pre2 ++ (cmid.process.process_id :: pre), post ++ post2, ?_⟩
    rw [hsp2, hsp]
    simp [List.append_assoc]

theorem list_sizeOf_pos (ls : List ProcessNode) : 1 ≤ sizeOf ls := by
  cases ls with
  | nil => simp
  | cons a l =>
    simp
    omega

theorem descAux_mem_strong :
    ∀ (n : Nat) (ls : List ProcessNode), sizeOf ls ≤ n →
      ∀ q ∈ descAux ls,
        ∃ d : ProcessNode,
          (d ∈ ls ∨ ∃ c, c ∈ ls ∧ Descendant c d) ∧
          d.process.process_id = q := by
  intro n
  induction n with
  | zero =>
    intro ls hsz
    have := list_sizeOf_pos ls
    omega
  | succ n ih =>
    intro ls hsz q hq
    cases ls with
    | nil =>
      rw [descAux_nil] at hq
      simp at hq
    | cons hd rest =>
      cases hd with
      | mk p cs =>
        rw [descAux_cons] at hq
        have hszcs : sizeOf cs ≤ n := by
          simp at hsz
          omega
        have hszrest : sizeOf rest ≤ n := by
          simp at hsz
          omega
        rcases List.mem_cons.mp hq with rfl | hq2
        · exact ⟨ProcessNode.mk p cs, Or.inl (List.mem_cons_self _ _), rfl⟩
        · rcases List.mem_append.mp hq2 with hqc | hqr
          · rcases ih cs hszcs q hqc with ⟨d, hd, hdq⟩
            refine ⟨d, Or.inr ⟨ProcessNode.mk p cs,
              List.mem_cons_self _ _, ?_⟩, hdq⟩
            rcases hd with hmem | ⟨c, hc, hcd⟩
            · exact Descendant.child hmem
            · exact Descendant.step hc hcd
          · rcases ih rest hszrest q hqr with ⟨d, hd, hdq⟩
            rcases hd with hmem | ⟨c, hc, hcd⟩
            · exact ⟨d, Or.inl (List.mem_cons_of_mem _ hmem), hdq⟩
            · exact ⟨d, Or.inr ⟨c, List.mem_cons_of_mem _ hc, hcd⟩, hdq⟩

/-- Every pid in `get_descendant_pids t` is the pid of a strict descendant
of `t`. -/
theorem descAux_mem_tree (t : ProcessNode) (q : Nat)
    (hq : q ∈ descAux t.children) :
    ∃ d, Descendant t d ∧ d.process.process_id = q := by
  rcases descAux_mem_strong (sizeOf t.children) t.children (le_refl _) q hq
    with ⟨d, hd, hdq⟩
  rcases hd with hmem | ⟨c, hc, hcd⟩
  · exact ⟨d, Descendant.child hmem, hdq⟩
  · exact ⟨d, Descendant.step hc hcd, hdq⟩

theorem findNode_spec (t : ProcessNode) (pid : Nat) :
    ∀ (n : Nat) (stack : List ProcessNode), sizeOf stack ≤ n →
      (∀ s ∈ stack, s = t ∨ Descendant t s) →
      ∀ res, findNode stack pid = some res →
        (res = t ∨ Descendant t res) ∧ res.process.process_id = pid := by
  intro n
  induction n with
  | zero =>
    intro stack hsz
    have := list_sizeOf_pos stack
    omega
  | succ n ih =>
    intro stack hsz hstack res hres
    cases stack with
    | nil => simp [findNode] at hres
    | cons s rest =>
      rw [findNode] at hres
      by_cases hpid : s.process.process_id = pid
      · rw [if_pos hpid] at hres
        rcases Option.some.inj hres with rfl
        exact ⟨hstack s (List.mem_cons_self _ _), hpid⟩
      · rw [if_neg hpid] at hres
        have hsz' : sizeOf (s.children.reverse ++ rest) ≤ n := by
          have h1 := sizeOf_list_append s.children.reverse rest
          have h2 := sizeOf_list_reverse s.children
          cases s with
          | mk p cs =>
            simp [ProcessNode.children] at h1 h2 ⊢
            simp at hsz
            omega
        refine ih (s.children.reverse ++ rest) hsz' ?_ res hres
        intro x hx
        rcases List.mem_append.mp hx with hxc | hxr
        · have hxc' : x ∈ s.children := List.mem_reverse.mp hxc
          rcases hstack s (List.mem_cons_self _ _) with rfl | hds
          · exact Or.inr (Descendant.child hxc')
          · exact Or.inr (desc_trans hds (Descendant.child hxc'))
        · exact hstack x (List.mem_cons_of_mem _ hxr)

/-- Top-level soundness of `build_process_tree` on a table: when the root
pid is present, the builder succeeds (the fuel `table.length + 1` is never
exhausted), the root node carries the root process, every node in the tree
is a table key, child edges come from the child index, and no node shares a
pid with one of its strict descendants. -/
theorem build_tree_sound (table : List (Nat × Process)) (rootPid : Nat)
    (hwf : WfTable table) (rp : Process)
    (hroot : table.lookup rootPid = some rp) :
    ∃ t, build_tree table rootPid = some t ∧ t.process = rp ∧
      (∀ d, Descendant t d → d.process.process_id ∈ table.map Prod.fst) ∧
      (∀ a, (a = t ∨ Descendant t a) → ∀ c, c ∈ a.children →
        c.process ∈ childList table rootPid a.process.process_id) ∧
      (∀ a d, (a = t ∨ Descendant t a) → Descendant a d →
        d.process.process_id ≠ a.process.process_id) := by
  have hrp : rp.process_id = rootPid :=
    hwf.2 (rootPid, rp) (lookup_mem table rootPid rp hroot)
  have hinv : ChainInv table rootPid [rootPid] rp :=
    ⟨[], rfl, List.Chain.nil, List.nodup_singleton _, by simp [hrp]⟩
  have hcard : ((table.map Prod.fst).toFinset \
      ([rootPid] : List Nat).toFinset).card < table.length + 1 := by
    have h1 : ((table.map Prod.fst).toFinset \
        ([rootPid] : List Nat).toFinset).card
        ≤ (table.map Prod.fst).toFinset.card :=
      Finset.card_le_card Finset.sdiff_subset
    have h2 : (table.map Prod.fst).toFinset.card
        ≤ (table.map Prod.fst).length := List.toFinset_card_le _
    simp only [List.length_map] at h2
    omega
  obtain ⟨t, ht, htp, havoid, hco, hsafe⟩ :=
    build_sound table rootPid hwf (table.length + 1) rp [rootPid] hinv hcard
  refine ⟨t, ?_, htp, fun d hd => (havoid d hd).2, hco, hsafe⟩
  simp [build_tree, hroot, ht]

/-- An inert PCB record used by the concrete examples. -/
def pcb0 : PcbData :=
  { cpu_percent := 0, memory_rss_mb := 0, state := 'S', priority := 0,
    uptime_seconds := 0 }

/-- A concrete root process (pid 1). -/
def procRoot : Process :=
  { process_id := 1, user_id := 0, name := "init", parent_id := some 0,
    pcb_data := pcb0 }

/-- A concrete malformed process that is its own parent (pid 2). -/
def procSelfLoop : Process :=
  { process_id := 2, user_id := 0, name := "loop", parent_id := some 2,
    pcb_data := pcb0 }

/-- Half of a concrete two-cycle: pid 2 with parent 3. -/
def procCycA : Process :=
  { process_id := 2, user_id := 0, name := "cycA", parent_id := some 3,
    pcb_data := pcb0 }

/-- Other half of the two-cycle: pid 3 with parent 2. -/
def procCycB : Process :=
  { process_id := 3, user_id := 0, name := "cycB", parent_id := some 2,
    pcb_data := pcb0 }

/-- C8: the tree builder terminates and produces a result on every input
table, including malformed tables whose parent links contain a cycle (a
self-parent record, or two records that are each other's parent): for every
well-formed table it yields a tree exactly when the root pid is present, and
in particular on the cyclic example tables.  (The recursion cannot revisit a
pid because pids are unique table keys and the root record is excluded from
the child index, so the depth budget `table.length + 1` is never
exhausted.) -/
theorem c8_tree_builder_total :
    (∀ (table : List (Nat × Process)) (rootPid : Nat), WfTable table →
      ((build_tree table rootPid).isSome ↔ (table.lookup rootPid).isSome)) ∧
    (build_tree [(1, procRoot), (2, procSelfLoop)] 1).isSome = true ∧
    (build_tree [(2, procSelfLoop)] 2).isSome = true ∧
    (build_tree [(1, procRoot), (2, procCycA), (3, procCycB)] 1).isSome
      = true := by
  refine ⟨?_, by decide, by decide, by decide⟩
  intro table rootPid hwf
  constructor
  · intro h
    cases hlk : table.lookup rootPid with
    | none =>
      rw [build_tree] at h
      rw [hlk] at h
      simp at h
    | some rp => simp
  · intro h
    rcases Option.isSome_iff_exists.mp h with ⟨rp, hrp⟩
    obtain ⟨t, ht, -⟩ := build_tree_sound table rootPid hwf rp hrp
    simp [ht]

theorem c8_tree_builder_total_witness :
    WfTable [(1, procRoot), (2, procSelfLoop)] ∧
    ((build_tree [(1, procRoot), (2, procSelfLoop)] 1).isSome ↔
      (([(1, procRoot), (2, procSelfLoop)] :
        List (Nat × Process)).lookup 1).isSome) :=
  ⟨⟨by decide, by decide⟩,
    c8_tree_builder_total.1 [(1, procRoot), (2, procSelfLoop)] 1
      ⟨by decide, by decide⟩⟩

/-- A concrete orphan: pid 5 whose declared parent 999 is not in the table. -/
def procOrphan : Process :=
  { process_id := 5, user_id := 0, name := "orphan", parent_id := some 999,
    pcb_data := pcb0 }

/-- C1 counterexample: the claim says an orphan (pid 5 with absent parent
999) must appear at root level in the builder's output.  The code drops it:
over `{1: root, 5: parent=999}` with root pid 1 the tree contains only
pid 1, and over the spec's literal table `{5: parent=999}` (root pid 1
absent) no tree is produced at all — pid 5 is silently omitted in both
cases. -/
theorem c1_orphan_counterexample :
    (build_tree [(1, procRoot), (5, procOrphan)] 1).map treePids
      = some [1] ∧
    build_tree [(5, procOrphan)] 1 = none := by
  constructor
  · have h : build_tree [(1, procRoot), (5, procOrphan)] 1
        = some (ProcessNode.mk procRoot []) := rfl
    rw [h]
    simp [treePids, descAux_nil, ProcessNode.children, ProcessNode.process,
      procRoot]
  · rfl

/-- C1 amended: orphans are not surfaced as roots; they are silently
omitted.  Every node of the built tree other than the root has its declared
parent pid present in the table, so a pid whose parent is absent from the
table never appears anywhere in the hierarchical view. -/
theorem c1_orphans_omitted (table : List (Nat × Process)) (rootPid : Nat)
    (hwf : WfTable table) (t : ProcessNode)
    (hbuild : build_tree table rootPid = some t) :
    ∀ d, Descendant t d → ∃ pp, d.process.parent_id = some pp ∧
      pp ∈ table.map Prod.fst := by
  cases hlk : table.lookup rootPid with
  | none =>
    rw [build_tree] at hbuild
    rw [hlk] at hbuild
    cases hbuild
  | some rp =>
    obtain ⟨t', ht', htp, hkeys, hco, -⟩ :=
      build_tree_sound table rootPid hwf rp hlk
    have htt : t' = t := by
      rw [ht'] at hbuild
      exact Option.some.inj hbuild
    subst htt
    intro d hd
    obtain ⟨a, ha, hda⟩ := desc_last_edge hd
    have hcm := hco a ha d hda
    obtain ⟨-, -, hpar, -⟩ :=
      childList_facts table rootPid a.process.process_id hwf d.process hcm
    refine ⟨a.process.process_id, hpar, ?_⟩
    rcases ha with rfl | hdesc
    · have hr : rp.process_id = rootPid :=
        hwf.2 (rootPid, rp) (lookup_mem table rootPid rp hlk)
      rw [htp, hr]
      exact lookup_mem_keys table rootPid rp hlk
    · exact hkeys a hdesc

/-- A concrete well-parented child process (pid 2, parent 1). -/
def procChild : Process :=
  { process_id := 2, user_id := 0, name := "child", parent_id := some 1,
    pcb_data := pcb0 }

theorem c1_orphans_omitted_witness :
    WfTable [(1, procRoot), (2, procChild)] ∧
    (∃ pp, (ProcessNode.mk procChild []).process.parent_id = some pp ∧
      pp ∈ ([(1, procRoot), (2, procChild)] :
        List (Nat × Process)).map Prod.fst) :=
  ⟨⟨by decide, by decide⟩,
    c1_orphans_omitted [(1, procRoot), (2, procChild)] 1
      ⟨by decide, by decide⟩
      (ProcessNode.mk procRoot [ProcessNode.mk procChild []]) rfl
      (ProcessNode.mk procChild [])
      (Descendant.child (by simp [ProcessNode.children]))⟩

theorem kill_loop_spec (manager : Manager) (os : OsCall → Bool)
    (hadmin : manager.active_user.privilege = Privilege.Admin) :
    ∀ (ps : List Nat) (acc : List Nat × Nat × List OsCall),
      ps.foldl (fun (acc : List Nat × Nat × List OsCall) pid =>
        let r := kill_process manager pid os
        match r.1 with
        | Except.ok _ => (acc.1 ++ [pid], acc.2.1, acc.2.2 ++ r.2)
        | Except.error _ => (acc.1, acc.2.1 + 1, acc.2.2 ++ r.2)) acc
      = (acc.1 ++ ps.filter (fun q => os (OsCall.signal q Signal.SIGKILL)),
         acc.2.1 + ps.countP (fun q => !os (OsCall.signal q Signal.SIGKILL)),
         acc.2.2 ++ ps.map (fun q => OsCall.signal q Signal.SIGKILL)) := by
  have hchk : check_admin_privilege manager = Except.ok () := by
    simp [check_admin_privilege, hadmin]
  intro ps
  induction ps with
  | nil => intro acc; simp
  | cons q ps ih =>
    intro acc
    have hkp : kill_process manager q os
        = (if os (OsCall.signal q Signal.SIGKILL) then Except.ok () else
            Except.error ("Failed to send SIGKILL to PID " ++ toString q),
          [OsCall.signal q Signal.SIGKILL]) := by
      simp [kill_process, hchk]
    simp only [List.foldl_cons, List.filter_cons, List.countP_cons,
      List.map_cons]
    cases hq : os (OsCall.signal q Signal.SIGKILL) with
    | true =>
      simp only [hkp, hq, if_true]
      rw [ih]
      simp [List.append_assoc]
    | false =>
      simp only [hkp, hq, if_false]
      rw [ih]
      simp [List.append_assoc]
      omega

/-- The run of `kill_descendants` under an Admin session, a built tree `t`
and a located start node: the OS-call trace is one SIGKILL per element of
`get_descendant_pids start` in reverse order, and a successful result
returns exactly the pids of that reverse list whose signal succeeded. -/
theorem kill_descendants_run (m : Manager) (pid : Nat) (os : OsCall → Bool)
    (t start : ProcessNode)
    (hadmin : m.active_user.privilege = Privilege.Admin)
    (hbuild : build_process_tree m = some t)
    (hfind : findNode [t] pid = some start) :
    (kill_descendants m pid os).2
      = (get_descendant_pids start).reverse.map
          (fun q => OsCall.signal q Signal.SIGKILL) ∧
    (∀ l, (kill_descendants m pid os).1 = Except.ok l →
      l = (get_descendant_pids start).reverse.filter
        (fun q => os (OsCall.signal q Signal.SIGKILL))) := by
  have hchk : check_admin_privilege m = Except.ok () := by
    simp [check_admin_privilege, hadmin]
  have hkd : kill_descendants m pid os
      = (let res := ((get_descendant_pids start).reverse.filter
            (fun q => os (OsCall.signal q Signal.SIGKILL)),
          0 + (get_descendant_pids start).reverse.countP
            (fun q => !os (OsCall.signal q Signal.SIGKILL)),
          (get_descendant_pids start).reverse.map
            (fun q => OsCall.signal q Signal.SIGKILL))
        if res.2.1 > 0 then
          (Except.error ("Successfully killed " ++ toString res.1.length ++
            " processes, but failed to kill " ++ toString res.2.1 ++
            " descendants."), res.2.2)
        else
          (Except.ok res.1, res.2.2)) := by
    rw [kill_descendants]
    rw [hchk]
    simp only [hbuild, hfind]
    rw [kill_loop_spec m os hadmin]
    simp
  constructor
  · rw [hkd]
    by_cases hcnt : 0 + (get_descendant_pids start).reverse.countP
        (fun q => !os (OsCall.signal q Signal.SIGKILL)) > 0
    · simp only [hcnt, if_true]
    · simp only [hcnt, if_false]
  · intro l hl
    rw [hkd] at hl
    by_cases hcnt : 0 + (get_descendant_pids start).reverse.countP
        (fun q => !os (OsCall.signal q Signal.SIGKILL)) > 0
    · simp only [hcnt, if_true] at hl
      cases hl
    · simp only [hcnt, if_false] at hl
      exact (Except.ok.inj hl).symm

/-- C7: `kill_descendants` enumerates all descendants of the located node
and attempts the kills in reverse-discovery (deepest-first) order: its
OS-call trace is exactly one SIGKILL per discovered descendant pid, in the
reverse of discovery order, and for every descendant `a` of the start node
and every descendant `d` of `a`, the kill of `d` is attempted strictly
before the kill of `a`. -/
theorem c7_kill_descendants_deepest_first
    (m : Manager) (pid : Nat) (os : OsCall → Bool) (t start : ProcessNode)
    (hadmin : m.active_user.privilege = Privilege.Admin)
    (hbuild : build_process_tree m = some t)
    (hfind : findNode [t] pid = some start) :
    (kill_descendants m pid os).2
      = (get_descendant_pids start).reverse.map
          (fun q => OsCall.signal q Signal.SIGKILL) ∧
    (∀ a d, Descendant start a → Descendant a d →
      Before ((get_descendant_pids start).reverse)
        d.process.process_id a.process.process_id) := by
  refine ⟨(kill_descendants_run m pid os t start hadmin hbuild hfind).1, ?_⟩
  intro a d h1 h2
  obtain ⟨pre, post, hsp⟩ := descAux_split h1
  obtain ⟨pre2, post2, hsp2⟩ := descAux_split h2
  have hdmem : d.process.process_id ∈ descAux a.children := by
    rw [hsp2]
    simp
  obtain ⟨m1, m2, hm⟩ := List.append_of_mem hdmem
  refine ⟨post.reverse ++ m2.reverse, m1.reverse, pre.reverse, ?_⟩
  rw [get_descendant_pids, hsp, hm]
  simp [List.reverse_append, List.append_assoc]

/-- A concrete grandchild process (pid 3, parent 2). -/
def procGrand : Process :=
  { process_id := 3, user_id := 0, name := "grand", parent_id := some 2,
    pcb_data := pcb0 }

/-- The tree over `{1: root, 2: parent 1, 3: parent 2}`. -/
def treeT : ProcessNode :=
  ProcessNode.mk procRoot
    [ProcessNode.mk procChild [ProcessNode.mk procGrand []]]

/-- An Admin-session manager over the three-process chain table. -/
def mgrTree : Manager :=
  { processes := [(1, procRoot), (2, procChild), (3, procGrand)],
    active_user := userAdmin, root_pid := 1, previous_cpu_times := [] }

/-- An OS behaviour that accepts every call. -/
def osTrue : OsCall → Bool := fun _ => true

theorem c7_kill_descendants_deepest_first_witness :
    (kill_descendants mgrTree 1 osTrue).2
      = (get_descendant_pids treeT).reverse.map
          (fun q => OsCall.signal q Signal.SIGKILL) ∧
    Before ((get_descendant_pids treeT).reverse) 3 2 := by
  have hfind : findNode [treeT] 1 = some treeT := by
    rw [findNode]
    simp [treeT, ProcessNode.process, procRoot]
  have h := c7_kill_descendants_deepest_first mgrTree 1 osTrue treeT treeT
    rfl rfl hfind
  refine ⟨h.1, ?_⟩
  have h2 := h.2 (ProcessNode.mk procChild [ProcessNode.mk procGrand []])
    (ProcessNode.mk procGrand [])
    (Descendant.child (by simp [treeT, ProcessNode.children]))
    (Descendant.child (by simp [ProcessNode.children]))
  exact h2

/-- C10: `kill_descendants` signals only strict descendants of the located
target node: every SIGKILL in the trace is aimed at the pid of a strict
descendant of the start node and never at the target pid itself, and the
returned list of terminated pids likewise contains only strict-descendant
pids, never the target pid. -/
theorem c10_kill_descendants_strict
    (m : Manager) (pid : Nat) (os : OsCall → Bool) (t start : ProcessNode)
    (hwf : WfTable m.processes)
    (hadmin : m.active_user.privilege = Privilege.Admin)
    (hbuild : build_process_tree m = some t)
    (hfind : findNode [t] pid = some start) :
    (∀ call ∈ (kill_descendants m pid os).2,
      ∃ q, call = OsCall.signal q Signal.SIGKILL ∧ q ≠ pid ∧
        ∃ d, Descendant start d ∧ d.process.process_id = q) ∧
    (∀ l, (kill_descendants m pid os).1 = Except.ok l →
      ∀ q ∈ l, q ≠ pid ∧
        ∃ d, Descendant start d ∧ d.process.process_id = q) := by
  have hstart := findNode_spec t pid (sizeOf [t]) [t] (le_refl _)
    (fun s hs => by
      rcases List.mem_singleton.mp hs with rfl
      exact Or.inl rfl) start hfind
  have hsafe_start : ∀ d, Descendant start d →
      d.process.process_id ≠ pid := by
    rcases hbuild' : m.processes.lookup m.root_pid with _ | rp
    · exfalso
      rw [build_process_tree, build_tree] at hbuild
      rw [hbuild'] at hbuild
      cases hbuild
    · obtain ⟨t', ht', -, -, -, hsafe⟩ :=
        build_tree_sound m.processes m.root_pid hwf rp hbuild'
      have htt : t' = t := by
        rw [build_process_tree] at hbuild
        rw [ht'] at hbuild
        exact Option.some.inj hbuild
      subst htt
      intro d hd heq
      have hinT : start = t' ∨ Descendant t' start := hstart.1
      have := hsafe start d hinT hd
      rw [hstart.2] at this
      exact this heq
  have hdesc_pid : ∀ q ∈ descAux start.children, q ≠ pid ∧
      ∃ d, Descendant start d ∧ d.process.process_id = q := by
    intro q hq
    obtain ⟨d, hd, hdq⟩ := descAux_mem_tree start q hq
    exact ⟨hdq ▸ hsafe_start d hd, d, hd, hdq⟩
  obtain ⟨htr, hok⟩ :=
    kill_descendants_run m pid os t start hadmin hbuild hfind
  constructor
  · intro call hcall
    rw [htr] at hcall
    rcases List.mem_map.mp hcall with ⟨q, hq, rfl⟩
    have hq' : q ∈ descAux start.children := by
      rw [get_descendant_pids] at hq
      exact List.mem_reverse.mp hq
    rcases hdesc_pid q hq' with ⟨hne, d, hd, hdq⟩
    exact ⟨q, rfl, hne, d, hd, hdq⟩
  · intro l hl q hq
    rw [hok l hl] at hq
    have hq' : q ∈ descAux start.children := by
      have := List.mem_of_mem_filter hq
      rw [get_descendant_pids] at this
      exact List.mem_reverse.mp this
    exact hdesc_pid q hq'

theorem c10_kill_descendants_strict_witness :
    WfTable mgrTree.processes ∧
    (∀ call ∈ (kill_descendants mgrTree 1 osTrue).2,
      ∃ q, call = OsCall.signal q Signal.SIGKILL ∧ q ≠ 1 ∧
        ∃ d, Descendant treeT d ∧ d.process.process_id = q) ∧
    (∀ l, (kill_descendants mgrTree 1 osTrue).1 = Except.ok l →
      ∀ q ∈ l, q ≠ 1 ∧
        ∃ d, Descendant treeT d ∧ d.process.process_id = q) := by
  have hfind : findNode [treeT] 1 = some treeT := by
    rw [findNode]
    simp [treeT, ProcessNode.process, procRoot]
  exact ⟨⟨by decide, by decide⟩,
    c10_kill_descendants_strict mgrTree 1 osTrue treeT treeT
      ⟨by decide, by decide⟩ rfl rfl hfind⟩

end LPMVerify
